import Mathlib

/-!
Shallow embedding of `Regnareb/pythonlib` (modules `common.py`, `utils.py`,
`iopath.py`, `qt.py`) and proofs about its specification claims.

Python strings are modelled as Lean `String` (the sources are Python 2 byte
strings; all comparisons and case conversions in the relevant code paths are
ASCII, where the two notions coincide).  Python numbers are modelled as `ℕ`,
`ℤ` or `ℚ` as appropriate; Python float division by 1024 is an exact exponent
shift, so `ℚ` is faithful on the inputs considered.
-/

namespace Common

/-- Python's `str.capitalize`: first character uppercased, the rest
lowercased (`common.py` uses it in `string2bool`). -/
def pyCapitalize (s : String) : String :=
  match s.data with
  | [] => ""
  | c :: rest => String.mk (Char.toUpper c :: rest.map Char.toLower)

/-- A value passed to `string2bool`: either a Python string or any
non-string value (modelled opaquely by a tag). -/
inductive SettingVal where
  | str (s : String)
  | other (tag : ℕ)
  deriving DecidableEq, Repr

/-- A value returned by `string2bool`: a genuine boolean or the input
value passed through. -/
inductive BoolOr where
  | bool (b : Bool)
  | val (v : SettingVal)
  deriving DecidableEq, Repr

/-- Embedding of `common.string2bool(string, strict)`, branch by branch:
non-strings are returned unchanged; with `strict` the result is
`capitalize() == 'True'`; without `strict` the code returns `False` when the
capitalization is `'True'`, `True` when it is `'False'`, and the string
otherwise. -/
def string2bool (v : SettingVal) (strict : Bool) : BoolOr :=
  match v with
  | .other t => .val (.other t)
  | .str s =>
    if strict then
      .bool (pyCapitalize s == "True")
    else
      if pyCapitalize s == "True" then .bool false
      else if pyCapitalize s == "False" then .bool true
      else .val (.str s)

/-- A process environment, the mapping backing `os.environ`. -/
def Env : Type := String → Option String

/-- Embedding of `common.restore_environment(f)`: copy `os.environ`, run `f`, then
`os.environ.update(old)` — every key of the copy is written back, keys
created by `f` and absent from the copy are left untouched. -/
def restore_environment {ρ : Type} (f : Env → Env × ρ) : Env → Env × ρ :=
  fun env =>
    let old : Env := env
    let res := f env
    (fun k => match old k with
      | some v => some v
      | none => res.1 k,
     res.2)

/-- The rgb component clamp `max(0, min(i, 255))` from `rgb2hex`. -/
def clamp255 (i : ℕ) : ℕ := max 0 (min i 255)

/-- The two lowercase hex digits of `"{0:02x}".format(n)` for `n ≤ 255`
(the clamp in `rgb2hex` guarantees the argument is ≤ 255, where `02x`
produces exactly two digits). -/
def hexPair (n : ℕ) : List Char :=
  [Nat.digitChar (n / 16), Nat.digitChar (n % 16)]

/-- `common.rgb2hex` on the integer-triple path: the `isinstance` string
and float branches do not fire for an `int` triple, so the code clamps each
component and formats `"#{0:02x}{1:02x}{2:02x}"`. -/
def rgb2hex (r g b : ℕ) : String :=
  String.mk ('#' :: (hexPair (clamp255 r) ++ hexPair (clamp255 g) ++ hexPair (clamp255 b)))

/-- Numeric value of a hex digit character, as `'xx'.decode('hex')`
interprets it. -/
def hexVal (c : Char) : ℕ :=
  if '0' ≤ c ∧ c ≤ '9' then c.toNat - '0'.toNat
  else if 'a' ≤ c ∧ c ≤ 'f' then c.toNat - 'a'.toNat + 10
  else if 'A' ≤ c ∧ c ≤ 'F' then c.toNat - 'A'.toNat + 10
  else 0

/-- Decoding as in `'...'.decode('hex')` followed by `map(ord, ...)`: consecutive pairs of
hex digits become byte values. -/
def decodeHexPairs : List Char → List ℕ
  | c1 :: c2 :: rest => (16 * hexVal c1 + hexVal c2) :: decodeHexPairs rest
  | _ => []

/-- Embedding of `common.hex2rgb(hexcode)`: `tuple(map(ord, hexcode[1:].decode('hex')))`. -/
def hex2rgb (s : String) : List ℕ :=
  decodeHexPairs (s.data.drop 1)

/-- The element an `itertools.cycle(l)` iterator yields on its `n`-th step
(the cycle repeats `l` forever). -/
def cycleStream {α : Type} [Inhabited α] (l : List α) (n : ℕ) : α :=
  l.getD (n % l.length) default

/-- The membership scan performed by `current not in self.enum_list` in
`Enum.next` when `enum_list` is `itertools.cycle(l)`: Python's `in` draws
elements from the iterator one by one, comparing each with `current`; this
models the scan truncated after `fuel` draws starting at cycle position
`start` (`true` = found within `fuel` steps). -/
def cycleScanFound {α : Type} [DecidableEq α] [Inhabited α]
    (l : List α) (current : α) : ℕ → ℕ → Bool
  | _, 0 => false
  | start, fuel + 1 =>
    if cycleStream l start = current then true
    else cycleScanFound l current (start + 1) fuel

/-- Lookup in the `memodict` cache, keyed by equality (`dict.__getitem__`
hit test). -/
def findCache {α β : Type} [DecidableEq α] : List (α × β) → α → Option β
  | [], _ => none
  | (k, v) :: rest, x => if x = k then some v else findCache rest x

/-- Running the callable returned by `common.memoize_single(f)` on a list of
successive arguments, starting from the given cache.  Each call is
`memodict.__getitem__`: a hit returns the stored value without calling `f`;
a miss runs `__missing__`, which computes `ret = self[key] = f(key)`.
Returns (results in order, final cache, arguments on which `f` was actually
evaluated, in order). -/
def memoRun {α β : Type} [DecidableEq α] (f : α → β) :
    List (α × β) → List α → List β × List (α × β) × List α
  | cache, [] => ([], cache, [])
  | cache, x :: xs =>
    match findCache cache x with
    | some v =>
      let r := memoRun f cache xs
      (v :: r.1, r.2.1, r.2.2)
    | none =>
      let r := memoRun f ((x, f x) :: cache) xs
      (f x :: r.1, r.2.1, x :: r.2.2)

/-- A token of the `alphanum_key` list built inside `natural_sort_key`:
`convert` turns each piece of `re.split('([0-9]+)', key)` into either an
`int` (digit runs) or a lowercased string.  Python 2 compares an `int`
below any `str`, `int`s numerically and `str`s bytewise — exactly the
lexicographic order on this sum (strings as `List Char`). -/
abbrev PyTok : Type := Lex (ℕ ⊕ List Char)

/-- The `int` value of a run of ASCII digits (`int(text)`). -/
def digitsVal (l : List Char) : ℕ :=
  l.foldl (fun n c => 10 * n + (c.toNat - 48)) 0

/-- One pass over the characters implementing
`[convert(c) for c in re.split('([0-9]+)', key)]`: the split alternates
(possibly empty) non-digit pieces with nonempty digit runs, starting and
ending with a non-digit piece; `inDigit` says whether the run being
accumulated (in `acc`, reversed) is a digit run.  Non-digit pieces are
lowercased (`text.lower()`), digit runs become their integer value
(`int(text)`, as `text.isdigit()` holds exactly for the digit runs). -/
def alphanumKeyAux : Bool → List Char → List Char → List PyTok
  | false, [], acc => [toLex (Sum.inr (acc.reverse.map Char.toLower))]
  | true, [], acc => [toLex (Sum.inl (digitsVal acc.reverse)), toLex (Sum.inr [])]
  | false, c :: cs, acc =>
    if c.isDigit then
      toLex (Sum.inr (acc.reverse.map Char.toLower)) :: alphanumKeyAux true cs [c]
    else alphanumKeyAux false cs (c :: acc)
  | true, c :: cs, acc =>
    if c.isDigit then alphanumKeyAux true cs (c :: acc)
    else toLex (Sum.inl (digitsVal acc.reverse)) :: alphanumKeyAux false cs [c]

/-- The key function `alphanum_key` of `natural_sort_key`. -/
def alphanum_key (s : String) : List PyTok :=
  alphanumKeyAux false s.data []

/-- The comparison `sorted(iterable, key=alphanum_key)` sorts by: Python's
list comparison on the key lists (lexicographic, a proper prefix sorting
first), which is the `≤` of the lexicographic order on `List PyTok`. -/
def naturalLe (a b : String) : Prop :=
  alphanum_key a ≤ alphanum_key b

instance : DecidableRel naturalLe :=
  fun a b => inferInstanceAs (Decidable (alphanum_key a ≤ alphanum_key b))

instance : IsTotal String naturalLe :=
  ⟨fun a b => le_total (alphanum_key a) (alphanum_key b)⟩

instance : IsTrans String naturalLe :=
  ⟨fun _ _ _ hab hbc => le_trans hab hbc⟩

/-- Embedding of `common.natural_sort_key(iterable)`: `sorted` with key `alphanum_key`.
Python's `sorted` is a stable sort; insertion sort is stable too, and a
stable sort's output is uniquely determined by the key order, so this is
the very list `sorted` returns. -/
def natural_sort_key (l : List String) : List String :=
  List.insertionSort naturalLe l

/-- The suffix table of `humansize`. -/
def suffixes : List String := ["B", "KiB", "MiB", "GiB", "TiB", "PiB"]

/-- The `while nbytes >= 1024 and i < len(suffixes) - 1` loop of
`humansize`, dividing by `1024.` and incrementing `i`.  Each iteration
increments `i` and the guard requires `i < 5`, so the body runs at most 5
times; with fuel 5 — the value `humansize` passes — the fuel can only be
exhausted when `i = 5`, where the guard fails anyway, so the fuel never
cuts the loop short.  Rationals model the Python floats exactly: dividing
a double by 1024 is an exact exponent shift. -/
def humanLoop : ℕ → ℚ → ℕ → ℚ × ℕ
  | 0, x, i => (x, i)
  | fuel + 1, x, i =>
    if 1024 ≤ x ∧ i < 5 then humanLoop fuel (x / 1024) (i + 1) else (x, i)

/-- Round-half-even of a rational to an integer — what C `printf` (and so
Python's `'%.2f'`) does to the exact value of the double after scaling by
100; the loop values `n / 1024^i` for `n < 2^53` are exactly the doubles
Python holds, so this is the exact rounding applied. -/
def roundHalfEven (y : ℚ) : ℤ :=
  if Int.fract y < 1 / 2 then ⌊y⌋
  else if 1 / 2 < Int.fract y then ⌊y⌋ + 1
  else if 2 ∣ ⌊y⌋ then ⌊y⌋ else ⌊y⌋ + 1

/-- Python's `str.rstrip(c)`: remove every trailing occurrence of `c`. -/
def rstrip (s : String) (c : Char) : String :=
  String.mk ((s.data.reverse.dropWhile (fun d => d == c)).reverse)

/-- Formatting `('%.2f' % x).rstrip('0').rstrip('.')` for the nonnegative values
`humansize` formats: two decimal places of the half-even rounding, with
trailing zeros and a trailing dot stripped. -/
def fmt2 (x : ℚ) : String :=
  let m := (roundHalfEven (100 * x)).toNat
  let s := toString (m / 100) ++ "."
    ++ (if m % 100 < 10 then "0" else "") ++ toString (m % 100)
  rstrip (rstrip s '0') '.'

/-- Embedding of `common.humansize(nbytes)`: `'0 B'` for zero, otherwise the loop value
formatted with `'%.2f'`, stripped, and joined with the suffix by a space. -/
def humansize (nbytes : ℕ) : String :=
  if nbytes = 0 then "0 B"
  else
    let p := humanLoop 5 (nbytes : ℚ) 0
    fmt2 p.1 ++ " " ++ suffixes.getD p.2 ""

end Common

namespace Utils

/-- Embedding of `utils.internet(host, port, timeout)`: set the default socket timeout,
attempt a TCP connect (which may raise `socket.error`, modelled as the
`Except` error case of the supplied `connect` action), return `True` on
success; the `except socket.error` handler logs and returns `False`. -/
def internet {ε : Type} (connect : String → ℕ → ℕ → Except ε Unit)
    (host : String) (port timeout : ℕ) : Bool :=
  match (do _ ← connect host port timeout; pure true : Except ε Bool) with
  | .ok b => b
  | .error _ => false

end Utils

namespace Iopath

/-- Embedding of `iopath.internet(host, port, timeout)` — a verbatim copy of
`utils.internet`. -/
def internet {ε : Type} (connect : String → ℕ → ℕ → Except ε Unit)
    (host : String) (port timeout : ℕ) : Bool :=
  match (do _ ← connect host port timeout; pure true : Except ε Bool) with
  | .ok b => b
  | .error _ => false

end Iopath

namespace Qt

/-- The validator installed on a `BetterLineEdit` (`self.validator`):
`QtGui.QIntValidator`, `QtGui.QDoubleValidator`, or anything else (the
`elif self._activate_undo` path). -/
inductive Validator where
  | intValidator
  | doubleValidator
  | noValidator
  deriving DecidableEq, Repr

/-- The keyboard modifiers consulted by `_event` (`event.modifiers()`). -/
inductive Modifiers where
  | control
  | shift
  | otherMod
  deriving DecidableEq, Repr

/-- The factor `multiplier = 0.1 if Control else 10 if Shift else 1`. -/
def multiplier : Modifiers → ℚ
  | .control => 1 / 10
  | .shift => 10
  | .otherMod => 1

/-- The `BetterLineEdit` fields `_event` reads: the parse of the current
text (`float(self.text())`, `none` when that raises `ValueError`), the
validator, `_singlestep`, `_minimum`, `_maximum`, `_accelerated_rate`. -/
structure LineEditState where
  text : Option ℚ
  validator : Validator
  singlestep : ℚ
  minimum : Option ℚ
  maximum : Option ℚ
  accelerated_rate : ℚ

/-- The stepped value `value = float(self.text()) + sign * self._singlestep * multiplier *
self._accelerated_rate`, or `value = 0` when the text does not parse
(`except ValueError`). -/
def eventValue (st : LineEditState) (sign : ℤ) (mods : Modifiers) : ℚ :=
  match st.text with
  | some v => v + (sign : ℚ) * st.singlestep * multiplier mods * st.accelerated_rate
  | none => 0

/-- The value `BetterLineEdit._event` hands to `setText` when a numeric
validator is installed (`none` when the validator is not numeric — the
undo/redo branch).  The statements `min(value, self._minimum)` and
`max(value, self._maximum)` compute and then *discard* their results —
embedded as the unused bindings below — so the value is never clamped. -/
def eventNewValue (st : LineEditState) (sign : ℤ) (mods : Modifiers) : Option ℚ :=
  if st.validator = .noValidator then none
  else
    let value := eventValue st sign mods
    let _minResult := st.minimum.map (fun m => min value m)
    let _maxResult := st.maximum.map (fun m => max value m)
    some value

/-- The per-checkbox and class-level state of `ExclusiveCheckBox`: which
boxes are checked, each box's `_exclusive_group` and `_always_one_active`,
and the `_exclusives` registry (checkboxes identified by `ℕ`, groups by
their key). -/
structure CBState where
  checked : ℕ → Bool
  groupOf : ℕ → Option String
  alwaysOne : ℕ → Bool
  registry : String → List ℕ

/-- Python truthiness of `self._exclusive_group` as tested by
`if not self._exclusive_group`: `None` and the empty string are falsy. -/
def truthyGroup : Option String → Bool
  | none => false
  | some s => !(s == "")

/-- The `for i in self._exclusives[...]` loop of `checkExclusive`: every
member other than `self` gets `setChecked(not self.isChecked())`; a
programmatic `setChecked` emits no `clicked` signal, so the loop does not
re-enter the handler. -/
def uncheckOthers (self : ℕ) (members : List ℕ) (checked : ℕ → Bool) : ℕ → Bool :=
  members.foldl
    (fun st i => if i ≠ self then (fun j => if j = i then !(st self) else st j) else st)
    checked

/-- Embedding of `ExclusiveCheckBox.checkExclusive`, branch by branch.  `pick` stands
for the `common.Enum(set).next(current=self)` successor choice of the
`always_one_active` branch (a Python `set` iterates in unspecified order,
so the chosen member is a parameter of the model). -/
def checkExclusive (pick : List ℕ → ℕ → ℕ) (st : CBState) (self : ℕ) : CBState :=
  if truthyGroup (st.groupOf self) = false then st
  else if st.checked self = false ∧ st.alwaysOne self = false then st
  else if st.checked self = false ∧ st.alwaysOne self = true then
    let g := (st.groupOf self).getD ""
    let obj := pick (st.registry g) self
    { st with checked := fun j => if j = obj then true else st.checked j }
  else
    let g := (st.groupOf self).getD ""
    { st with checked := uncheckOthers self (st.registry g) st.checked }

/-- A user click on checkbox `self`: the toolkit toggles the check state
first, then emits `clicked`, which `setExclusive` connected to
`checkExclusive`. -/
def clickOn (pick : List ℕ → ℕ → ℕ) (st : CBState) (self : ℕ) : CBState :=
  let st1 : CBState :=
    { st with checked := fun j => if j = self then !(st.checked j) else st.checked j }
  checkExclusive pick st1 self

end Qt

section Theorems

/- ### Helper lemmas -/

theorem Common.hexVal_digitChar : ∀ k < 16, Common.hexVal (Nat.digitChar k) = k := by
  decide

theorem Common.decodeHexPairs_hexPair (n : ℕ) (hn : n ≤ 255) (rest : List Char) :
    Common.decodeHexPairs (Common.hexPair n ++ rest) = n :: Common.decodeHexPairs rest := by
  have hdiv : n / 16 < 16 := by omega
  have hmod : n % 16 < 16 := Nat.mod_lt _ (by norm_num)
  simp only [Common.hexPair, List.cons_append, List.nil_append, Common.decodeHexPairs,
    Common.hexVal_digitChar _ hdiv, Common.hexVal_digitChar _ hmod]
  congr 1
  omega

theorem Common.clamp255_eq (n : ℕ) (h : n ≤ 255) : Common.clamp255 n = n := by
  simp [Common.clamp255, Nat.min_eq_left h]

theorem Common.cycleStream_mem {α : Type} [Inhabited α] (l : List α) (h : l ≠ [])
    (n : ℕ) : Common.cycleStream l n ∈ l := by
  have hlen : 0 < l.length := List.length_pos.mpr h
  have hn : n % l.length < l.length := Nat.mod_lt _ hlen
  rw [Common.cycleStream, List.getD_eq_getElem l default hn]
  exact List.getElem_mem hn

theorem Common.cycleScanFound_eq_false {α : Type} [DecidableEq α] [Inhabited α]
    (l : List α) (current : α) (hcur : current ∉ l) (hne : l ≠ []) :
    ∀ fuel start, Common.cycleScanFound l current start fuel = false := by
  intro fuel
  induction fuel with
  | zero => intro start; rfl
  | succ n ih =>
    intro start
    have hmem := Common.cycleStream_mem l hne start
    have : Common.cycleStream l start ≠ current := fun he => hcur (he ▸ hmem)
    simp [Common.cycleScanFound, this, ih]

theorem Common.findCache_sound {α β : Type} [DecidableEq α]
    (cache : List (α × β)) (x : α) (v : β) (h : Common.findCache cache x = some v) :
    (x, v) ∈ cache := by
  induction cache with
  | nil => simp [Common.findCache] at h
  | cons p rest ih =>
    obtain ⟨k, w⟩ := p
    by_cases hx : x = k
    · subst hx
      simp [Common.findCache] at h
      simp [h]
    · simp [Common.findCache, hx] at h
      exact List.mem_cons_of_mem _ (ih h)

theorem Common.memoRun_spec {α β : Type} [DecidableEq α] (f : α → β) :
    ∀ (qs : List α) (cache : List (α × β)),
      (∀ p ∈ cache, p.2 = f p.1) →
      (Common.memoRun f cache qs).1 = qs.map f
      ∧ (∀ p ∈ (Common.memoRun f cache qs).2.1, p.2 = f p.1)
      ∧ (∀ x, (Common.findCache cache x).isSome →
          (Common.memoRun f cache qs).2.2.count x = 0)
      ∧ (∀ x, (Common.memoRun f cache qs).2.2.count x ≤ 1) := by
  intro qs
  induction qs with
  | nil =>
    intro cache hc
    refine ⟨rfl, hc, fun x _ => rfl, fun x => by simp [Common.memoRun]⟩
  | cons x xs ih =>
    intro cache hc
    cases hfc : Common.findCache cache x with
    | some v =>
      have hv : v = f x := by
        have := hc _ (Common.findCache_sound cache x v hfc)
        simpa using this
      obtain ⟨hA, hB, hC, hD⟩ := ih cache hc
      have hEq : Common.memoRun f cache (x :: xs)
          = (v :: (Common.memoRun f cache xs).1,
             (Common.memoRun f cache xs).2.1, (Common.memoRun f cache xs).2.2) := by
        simp [Common.memoRun, hfc]
      rw [hEq]
      exact ⟨by simp [hA, hv], hB, fun y hy => hC y hy, hD⟩
    | none =>
      have hc' : ∀ p ∈ (x, f x) :: cache, p.2 = f p.1 := by
        intro p hp
        rcases List.mem_cons.mp hp with h | h
        · subst h; rfl
        · exact hc _ h
      obtain ⟨hA, hB, hC, hD⟩ := ih ((x, f x) :: cache) hc'
      have hCx : (Common.memoRun f ((x, f x) :: cache) xs).2.2.count x = 0 := by
        apply hC
        simp [Common.findCache]
      have hEq : Common.memoRun f cache (x :: xs)
          = (f x :: (Common.memoRun f ((x, f x) :: cache) xs).1,
             (Common.memoRun f ((x, f x) :: cache) xs).2.1,
             x :: (Common.memoRun f ((x, f x) :: cache) xs).2.2) := by
        simp [Common.memoRun, hfc]
      rw [hEq]
      refine ⟨by simp [hA], hB, ?_, ?_⟩
      · intro y hy
        have hyx : y ≠ x := by
          intro he
          rw [he, hfc] at hy
          simp at hy
        have hsome : (Common.findCache ((x, f x) :: cache) y).isSome := by
          simpa [Common.findCache, hyx] using hy
        have h0 := hC y hsome
        simp [List.count_cons, h0, hyx]
      · intro y
        by_cases hyx : y = x
        · subst hyx
          simp [List.count_cons, hCx]
        · have := hD y
          simp [List.count_cons, hyx]
          omega

theorem Common.humanLoop_spec :
    ∀ (fuel : ℕ) (x : ℚ) (i : ℕ), i + fuel = 5 →
      ∃ k, k ≤ fuel
        ∧ Common.humanLoop fuel x i = (x / 1024 ^ k, i + k)
        ∧ (i + k < 5 → x / 1024 ^ k < 1024)
        ∧ (0 < k → 1024 ≤ x / 1024 ^ (k - 1)) := by
  intro fuel
  induction fuel with
  | zero =>
    intro x i hi
    exact ⟨0, le_refl 0, by simp [Common.humanLoop],
      fun hik => absurd hik (by omega), fun h0 => absurd h0 (lt_irrefl 0)⟩
  | succ n ih =>
    intro x i hi
    by_cases h : 1024 ≤ x ∧ i < 5
    · obtain ⟨k', hk', heq, hlt, hge⟩ := ih (x / 1024) (i + 1) (by omega)
      have hdd : x / 1024 / 1024 ^ k' = x / 1024 ^ (k' + 1) := by
        rw [div_div, ← pow_succ']
      refine ⟨k' + 1, by omega, ?_, ?_, ?_⟩
      · simp only [Common.humanLoop, if_pos h, heq, hdd]
        congr 1
        omega
      · intro hik
        have h2 := hlt (by omega)
        rw [hdd] at h2
        exact h2
      · intro _
        rcases Nat.eq_zero_or_pos k' with h0 | hpos
        · subst h0
          simpa using h.1
        · have h3 := hge hpos
          have hdd2 : x / 1024 / 1024 ^ (k' - 1) = x / 1024 ^ (k' - 1 + 1) := by
            rw [div_div, ← pow_succ']
          have hk1 : k' - 1 + 1 = k' := by omega
          rw [hdd2, hk1] at h3
          have hk2 : k' + 1 - 1 = k' := by omega
          rw [hk2]
          exact h3
    · refine ⟨0, Nat.zero_le _, by simp [Common.humanLoop, if_neg h], ?_,
        fun h0 => absurd h0 (lt_irrefl 0)⟩
      intro hik
      rw [pow_zero, div_one]
      by_contra hh
      push_neg at hh
      exact h ⟨hh, by omega⟩

theorem Qt.uncheckOthers_spec (self : ℕ) (members : List ℕ) :
    ∀ (checked : ℕ → Bool), checked self = true →
      ∀ j, Qt.uncheckOthers self members checked j
        = if j ≠ self ∧ j ∈ members then false else checked j := by
  induction members with
  | nil =>
    intro checked _ j
    simp [Qt.uncheckOthers]
  | cons m ms ih =>
    intro checked h j
    have hfold : Qt.uncheckOthers self (m :: ms) checked
        = Qt.uncheckOthers self ms
            (if m ≠ self then (fun t => if t = m then !(checked self) else checked t)
             else checked) := rfl
    by_cases hm : m = self
    · subst hm
      rw [hfold, if_neg (by simp)]
      rw [ih checked h j]
      by_cases hj : j = m
      · simp [hj]
      · simp [List.mem_cons, hj]
    · have hsm : ¬ (self = m) := fun e => hm e.symm
      have h1 : (fun t => if t = m then !(checked self) else checked t) self = true := by
        show (if self = m then !(checked self) else checked self) = true
        rw [if_neg hsm]
        exact h
      rw [hfold, if_pos hm, ih _ h1 j]
      by_cases hj : j = self
      · subst hj
        simp [hsm]
      · by_cases hjm : j = m
        · subst hjm
          by_cases hjms : j ∈ ms <;> simp [hj, hjms, h, List.mem_cons]
        · by_cases hjms : j ∈ ms <;> simp [hj, hjm, hjms, List.mem_cons]

theorem Qt.checkExclusive_checked (pick : List ℕ → ℕ → ℕ) (st : Qt.CBState)
    (self : ℕ) (g : String) (hg : st.groupOf self = some g) (hg' : g ≠ "")
    (hchk : st.checked self = true) :
    Qt.checkExclusive pick st self
      = { st with checked := Qt.uncheckOthers self (st.registry g) st.checked } := by
  unfold Qt.checkExclusive
  rw [hg]
  rw [if_neg (by simp [Qt.truthyGroup, hg']), if_neg (by simp [hchk]),
    if_neg (by simp [hchk])]
  simp

/- ### Claim theorems -/

/-- C1 (amended): for every group registered under a *truthy* (non-empty)
key, after a click that leaves a registered checkbox checked, every other
checkbox registered in the group is unchecked — the loop sets each to
`not self.isChecked() = False` — hence at most one checkbox of the group
is checked.  (For the falsy key `''` the guard
`if not self._exclusive_group: return` disables the handler entirely; see
the counterexample.) -/
theorem C1_exclusive_group (pick : List ℕ → ℕ → ℕ) (st : Qt.CBState) (self : ℕ)
    (g : String) (hg : st.groupOf self = some g) (hg' : g ≠ "")
    (hself : st.checked self = false) :
    (Qt.clickOn pick st self).checked self = true
    ∧ (∀ i ∈ st.registry g, i ≠ self → (Qt.clickOn pick st self).checked i = false)
    ∧ (∀ i ∈ st.registry g, (Qt.clickOn pick st self).checked i = true → i = self) := by
  have htoggle : (fun j => if j = self then !(st.checked j) else st.checked j) self = true := by
    simp [hself]
  have hstep : Qt.clickOn pick st self
      = { st with checked := (Qt.uncheckOthers self (st.registry g)
            (fun j => if j = self then !(st.checked j) else st.checked j)) } := by
    show Qt.checkExclusive pick
        { st with checked := (fun j => if j = self then !(st.checked j) else st.checked j) }
        self = _
    rw [Qt.checkExclusive_checked pick
        { st with checked := (fun j => if j = self then !(st.checked j) else st.checked j) }
        self g hg hg' htoggle]
  have hspec := Qt.uncheckOthers_spec self (st.registry g)
    (fun j => if j = self then !(st.checked j) else st.checked j) htoggle
  refine ⟨?_, fun i hi hne => ?_, fun i hi hchk => ?_⟩
  · rw [hstep]
    show Qt.uncheckOthers self (st.registry g) _ self = true
    rw [hspec self]
    simp [hself]
  · rw [hstep]
    show Qt.uncheckOthers self (st.registry g) _ i = false
    rw [hspec i]
    simp [hne, hi]
  · by_contra hne
    rw [hstep] at hchk
    have hchk2 : Qt.uncheckOthers self (st.registry g)
        (fun j => if j = self then !(st.checked j) else st.checked j) i = true := hchk
    have hfalse : Qt.uncheckOthers self (st.registry g)
        (fun j => if j = self then !(st.checked j) else st.checked j) i = false := by
      rw [hspec i]
      simp [hne, hi]
    rw [hchk2] at hfalse
    exact absurd hfalse (by simp)

/-- Witness for C1 at a concrete three-checkbox group "g": clicking
unchecked box 1 makes it the only checked member. -/
theorem C1_exclusive_witness :
    (Qt.clickOn (fun _ s => s)
      (Qt.CBState.mk (fun j => j == 3) (fun _ => some "g") (fun _ => false)
        (fun s => if s = "g" then [1, 2, 3] else [])) 1).checked 1 = true
    ∧ (∀ i ∈ (Qt.CBState.mk (fun j => j == 3) (fun _ => some "g") (fun _ => false)
          (fun s => if s = "g" then [1, 2, 3] else [])).registry "g", i ≠ 1 →
        (Qt.clickOn (fun _ s => s)
          (Qt.CBState.mk (fun j => j == 3) (fun _ => some "g") (fun _ => false)
            (fun s => if s = "g" then [1, 2, 3] else [])) 1).checked i = false)
    ∧ (∀ i ∈ (Qt.CBState.mk (fun j => j == 3) (fun _ => some "g") (fun _ => false)
          (fun s => if s = "g" then [1, 2, 3] else [])).registry "g",
        (Qt.clickOn (fun _ s => s)
          (Qt.CBState.mk (fun j => j == 3) (fun _ => some "g") (fun _ => false)
            (fun s => if s = "g" then [1, 2, 3] else [])) 1).checked i = true → i = 1) :=
  C1_exclusive_group (fun _ s => s)
    (Qt.CBState.mk (fun j => j == 3) (fun _ => some "g") (fun _ => false)
      (fun s => if s = "g" then [1, 2, 3] else []))
    1 "g" rfl (by decide) rfl

/-- C1 counterexample: registering two checkboxes under the empty-string
group key — a legal dict key, but falsy in Python — and clicking box 1
while box 2 is checked: `checkExclusive` returns at
`if not self._exclusive_group`, so box 1 ends checked *and* box 2, another
member of the same group, stays checked, falsifying the claim's "every
other checkbox registered in g is unchecked" for g = ''. -/
theorem C1_exclusive_counterexample :
    2 ∈ (Qt.CBState.mk (fun j => j == 2) (fun _ => some "") (fun _ => false)
          (fun s => if s = "" then [1, 2] else [])).registry ""
    ∧ (Qt.clickOn (fun _ s => s)
        (Qt.CBState.mk (fun j => j == 2) (fun _ => some "") (fun _ => false)
          (fun s => if s = "" then [1, 2] else [])) 1).checked 1 = true
    ∧ (Qt.clickOn (fun _ s => s)
        (Qt.CBState.mk (fun j => j == 2) (fun _ => some "") (fun _ => false)
          (fun s => if s = "" then [1, 2] else [])) 1).checked 2 = true := by
  refine ⟨by decide, by decide, by decide⟩

/-- C2: the claim states `string2bool(s, strict=False)` returns `True` when
`s.capitalize() == 'True'` and `False` when it equals `'False'`.  The code
returns the opposite boolean in each case (contradicting its own docstring,
which promises the string's boolean value): evaluated at the failing input
`'True'` (and at `'False'`) the non-strict branch yields the swapped
booleans, while non-strings are indeed returned unchanged. -/
theorem C2_string2bool_nonstrict_inverted :
    Common.string2bool (.str "True") false = .bool false
    ∧ Common.string2bool (.str "False") false = .bool true
    ∧ Common.string2bool (.other 7) false = .val (.other 7) := by
  refine ⟨?_, ?_, ?_⟩ <;> decide

/-- C3: the claim states `Enum(l).next(current)` terminates for every
`current`, including the default `None`.  But `Enum.next` first evaluates
`current not in self.enum_list` where `enum_list` is `itertools.cycle(l)`:
the membership scan draws elements of the infinite cycle one by one, and
when `current` is not an element of `l` (here `Enum(['a','b']).next()`, so
`current = None`) no finite number of draws ever finds it — the scan
reports failure for no fuel bound, i.e. the call never returns. -/
theorem C3_enum_next_none_diverges :
    ∀ fuel start : ℕ,
      Common.cycleScanFound [some "a", some "b"] (none : Option String) start fuel = false := by
  intro fuel start
  exact Common.cycleScanFound_eq_false [some "a", some "b"] none
    (by decide) (by decide) fuel start

/-- C4: the callable returned by `memoize_single(f)` is extensionally equal
to `f` — over any sequence of calls each result equals `f` of the argument —
and `f` is evaluated at most once per distinct argument (the list of
arguments on which `f` actually ran contains each value at most once). -/
theorem C4_memoize_single_correct {α β : Type} [DecidableEq α]
    (f : α → β) (qs : List α) :
    (Common.memoRun f [] qs).1 = qs.map f
    ∧ ∀ x, (Common.memoRun f [] qs).2.2.count x ≤ 1 := by
  obtain ⟨hA, _, _, hD⟩ := Common.memoRun_spec f qs [] (by simp)
  exact ⟨hA, hD⟩

/-- C7: `internet` (both the `utils` and the `iopath` copy, which are
identical) returns `True` exactly when the TCP connect succeeds, and
returns `False` — rather than propagating the exception — whenever the
connect raises `socket.error`. -/
theorem C7_internet_catches_socket_error {ε : Type}
    (connect : String → ℕ → ℕ → Except ε Unit) (host : String) (port timeout : ℕ) :
    Utils.internet connect host port timeout = Iopath.internet connect host port timeout
    ∧ (connect host port timeout = .ok () →
        Utils.internet connect host port timeout = true)
    ∧ (∀ e : ε, connect host port timeout = .error e →
        Utils.internet connect host port timeout = false) := by
  refine ⟨rfl, fun h => ?_, fun e h => ?_⟩ <;>
    simp [Utils.internet, h, Except.bind]

/-- Witness for C7 at a concrete connect outcome on each side. -/
theorem C7_internet_witness :
    Utils.internet (ε := String) (fun _ _ _ => .ok ()) "8.8.8.8" 53 3 = true
    ∧ Utils.internet (ε := String) (fun _ _ _ => .error "unreachable") "8.8.8.8" 53 3 = false := by
  exact ⟨(C7_internet_catches_socket_error (fun _ _ _ => .ok ()) "8.8.8.8" 53 3).2.1 rfl,
    (C7_internet_catches_socket_error (fun _ _ _ => .error "unreachable") "8.8.8.8" 53 3).2.2
      "unreachable" rfl⟩

/-- C8: for components `r, g, b ≤ 255`, `hex2rgb (rgb2hex (r, g, b))`
returns `(r, g, b)`: `rgb2hex` emits `'#'` plus two lowercase hex digits per
component and `hex2rgb` decodes them back. -/
theorem C8_hex2rgb_leftInverse_rgb2hex (r g b : ℕ)
    (hr : r ≤ 255) (hg : g ≤ 255) (hb : b ≤ 255) :
    Common.hex2rgb (Common.rgb2hex r g b) = [r, g, b] := by
  simp only [Common.hex2rgb, Common.rgb2hex, Common.clamp255_eq r hr,
    Common.clamp255_eq g hg, Common.clamp255_eq b hb]
  show Common.decodeHexPairs
    (Common.hexPair r ++ (Common.hexPair g ++ (Common.hexPair b ++ []))) = [r, g, b]
  rw [Common.decodeHexPairs_hexPair r hr, Common.decodeHexPairs_hexPair g hg,
    Common.decodeHexPairs_hexPair b hb]
  rfl

/-- Witness for C8 at the concrete triple (12, 34, 255). -/
theorem C8_hex2rgb_witness : Common.hex2rgb (Common.rgb2hex 12 34 255) = [12, 34, 255] :=
  C8_hex2rgb_leftInverse_rgb2hex 12 34 255 (by decide) (by decide) (by decide)

/-- C10: a call wrapped by `restore_environment` returns exactly what `f`
returns; every variable present before the call is restored to its pre-call
value afterwards; a variable absent before the call keeps whatever value `f`
left it with (newly created variables are not removed). -/
theorem C10_restore_environment_spec {ρ : Type}
    (f : Common.Env → Common.Env × ρ) (env : Common.Env) :
    (Common.restore_environment f env).2 = (f env).2
    ∧ (∀ k v, env k = some v → (Common.restore_environment f env).1 k = some v)
    ∧ (∀ k, env k = none → (Common.restore_environment f env).1 k = (f env).1 k) := by
  refine ⟨rfl, fun k v hk => ?_, fun k hk => ?_⟩ <;>
    simp [Common.restore_environment, hk]

/-- Witness for C10: a concrete `f` that overwrites `HOME` and creates
`NEW`; after the wrapped call `HOME` is restored and `NEW` survives. -/
theorem C10_restore_environment_witness :
    (Common.restore_environment (ρ := ℕ)
        (fun e => (fun k => if k = "NEW" then some "x"
                            else if k = "HOME" then some "/tmp" else e k, 7))
        (fun k => if k = "HOME" then some "/root" else none)).1 "HOME" = some "/root"
    ∧ (Common.restore_environment (ρ := ℕ)
        (fun e => (fun k => if k = "NEW" then some "x"
                            else if k = "HOME" then some "/tmp" else e k, 7))
        (fun k => if k = "HOME" then some "/root" else none)).1 "NEW" = some "x" := by
  refine ⟨(C10_restore_environment_spec _ _).2.1 "HOME" "/root" rfl, ?_⟩
  have h := (C10_restore_environment_spec
    (ρ := ℕ)
    (fun e => (fun k => if k = "NEW" then some "x"
                        else if k = "HOME" then some "/tmp" else e k, 7))
    (fun k => if k = "HOME" then some "/root" else none)).2.2 "NEW" rfl
  simpa using h

/-- C5: `natural_sort_key` returns a permutation of its input list, sorted
in nondecreasing order under the natural-sort key: each string is split
into maximal digit runs (compared as integers) and non-digit runs
(compared lowercased), positions of different kinds never deciding a
comparison between two keys of the same shape (an `int` token sorts below
a `str` token, as in Python 2); in particular `'item2'` sorts before
`'item10'`. -/
theorem C5_natural_sort_key (l : List String) :
    (Common.natural_sort_key l).Perm l
    ∧ List.Sorted Common.naturalLe (Common.natural_sort_key l)
    ∧ Common.natural_sort_key ["item10", "item2"] = ["item2", "item10"] := by
  refine ⟨List.perm_insertionSort _ _, List.sorted_insertionSort _ _, ?_⟩
  decide

/-- C6 (amended): `humansize 0 = '0 B'`; for `nbytes > 0` the result is the
input repeatedly divided by 1024 — until the value is below 1024 or the
last suffix is reached — formatted with at most two decimal places
(trailing zeros and a trailing dot stripped), a space, and the
corresponding suffix; the value *before rounding* is below 1024 for every
suffix except `'PiB'` (after rounding to two decimals the displayed
numeric part can reach exactly 1024, see the counterexample), and a
division step is only taken while the value is at least 1024. -/
theorem C6_humansize_spec (n : ℕ) (h : 0 < n) :
    Common.humansize 0 = "0 B"
    ∧ ∃ i, i ≤ 5
        ∧ Common.humansize n
          = Common.fmt2 ((n : ℚ) / 1024 ^ i) ++ " " ++ Common.suffixes.getD i ""
        ∧ (i < 5 → (n : ℚ) / 1024 ^ i < 1024)
        ∧ (0 < i → 1024 ≤ (n : ℚ) / 1024 ^ (i - 1)) := by
  obtain ⟨k, hk, heq, hlt, hge⟩ := Common.humanLoop_spec 5 (n : ℚ) 0 rfl
  have hn0 : n ≠ 0 := Nat.pos_iff_ne_zero.mp h
  refine ⟨rfl, k, hk, ?_, by simpa using hlt, by simpa using hge⟩
  simp only [Common.humansize, if_neg hn0, heq, Nat.zero_add]

/-- Witness for C6 at `nbytes = 1536` (`humansize(1536) = '1.5 KiB'`). -/
theorem C6_humansize_witness :
    Common.humansize 0 = "0 B"
    ∧ ∃ i, i ≤ 5
        ∧ Common.humansize 1536
          = Common.fmt2 ((1536 : ℚ) / 1024 ^ i) ++ " " ++ Common.suffixes.getD i ""
        ∧ (i < 5 → (1536 : ℚ) / 1024 ^ i < 1024)
        ∧ (0 < i → 1024 ≤ (1536 : ℚ) / 1024 ^ (i - 1)) :=
  C6_humansize_spec 1536 (by norm_num)

/-- C6 counterexample: the claim says the numeric part of the result is
below 1024 for every suffix except `'PiB'`, but at `nbytes = 1048575` the
loop stops after one division with value `1048575/1024 = 1023.9990234375`
and `'%.2f'` rounds it to `'1024.00'`, so the returned string is
`'1024 KiB'`: a displayed numeric part of 1024 — not below 1024 — with the
suffix `'KiB'`. -/
theorem C6_humansize_counterexample :
    Common.humansize 1048575 = "1024 KiB" ∧ ¬ ((1024 : ℚ) < 1024) := by
  refine ⟨?_, lt_irrefl 1024⟩
  have h1 : Common.humanLoop 5 ((1048575 : ℕ) : ℚ) 0 = ((1048575 : ℚ) / 1024, 1) := by
    norm_num [Common.humanLoop]
  have hfl : ⌊(100 : ℚ) * (1048575 / 1024)⌋ = 102399 := by
    rw [Int.floor_eq_iff]
    norm_num
  have hfr : Int.fract ((100 : ℚ) * (1048575 / 1024)) = 231 / 256 := by
    rw [Int.fract, hfl]
    norm_num
  have h2 : Common.roundHalfEven ((100 : ℚ) * (1048575 / 1024)) = 102400 := by
    rw [Common.roundHalfEven, hfr, hfl]
    norm_num
  simp only [Common.humansize, if_neg (by norm_num : ¬(1048575 = 0)), h1]
  simp only [Common.fmt2, h2]
  decide

/-- C9: with an int or float validator, a wheel or arrow-key step hands
`setText` the unclamped value
`old + sign * singlestep * multiplier * accelerated_rate`; the result does
not depend on `_minimum` or `_maximum` (the code discards the results of
`min(value, self._minimum)` and `max(value, self._maximum)`), and for some
configuration (minimum 5, old value 0, one step down) the new value lies
strictly below the configured minimum. -/
theorem C9_betterlineedit_no_clamp (st : Qt.LineEditState) (sign : ℤ)
    (mods : Qt.Modifiers) (v : ℚ)
    (hval : st.validator ≠ .noValidator) (htext : st.text = some v) :
    Qt.eventNewValue st sign mods
      = some (v + (sign : ℚ) * st.singlestep * Qt.multiplier mods * st.accelerated_rate)
    ∧ (∀ mn mx : Option ℚ,
        Qt.eventNewValue { st with minimum := mn, maximum := mx } sign mods
          = Qt.eventNewValue st sign mods)
    ∧ (∃ w : ℚ,
        Qt.eventNewValue ⟨some 0, .intValidator, 1, some 5, some 10, 1⟩ (-1) .otherMod
          = some w ∧ w < 5) := by
  refine ⟨?_, fun mn mx => ?_, ⟨-1, ?_, by norm_num⟩⟩
  · simp [Qt.eventNewValue, hval, Qt.eventValue, htext]
  · simp [Qt.eventNewValue, hval, Qt.eventValue, htext]
  · show Qt.eventNewValue ⟨some 0, .intValidator, 1, some 5, some 10, 1⟩ (-1) .otherMod
      = some (-1)
    simp [Qt.eventNewValue, Qt.eventValue, Qt.multiplier]

/-- Witness for C9 at a concrete double-validator state. -/
theorem C9_betterlineedit_witness :
    Qt.eventNewValue ⟨some 2, .doubleValidator, 1, none, none, 1⟩ 1 .shift
      = some (2 + ((1 : ℤ) : ℚ) * 1 * Qt.multiplier .shift * 1)
    ∧ (∀ mn mx : Option ℚ,
        Qt.eventNewValue
            { (⟨some 2, .doubleValidator, 1, none, none, 1⟩ : Qt.LineEditState) with
              minimum := mn, maximum := mx } 1 .shift
          = Qt.eventNewValue (⟨some 2, .doubleValidator, 1, none, none, 1⟩ : Qt.LineEditState)
              1 .shift)
    ∧ (∃ w : ℚ,
        Qt.eventNewValue ⟨some 0, .intValidator, 1, some 5, some 10, 1⟩ (-1) .otherMod
          = some w ∧ w < 5) :=
  C9_betterlineedit_no_clamp ⟨some 2, .doubleValidator, 1, none, none, 1⟩ 1 .shift 2
    (by decide) rfl

end Theorems
